import Mathlib

/-!
Shallow embedding of the sloboden-pecat-scraper repository.

Source files embedded here:
  * `scrape.py` — `clean_html_content`, `fetch_category_posts`,
    `load_data`, `save_data`, `main`.
  * `utils/consolidate_data.py` — `load_all_categories` (the corpus merger).

Modelling conventions:
  * A post's `content.rendered` HTML is represented by the list of text
    blocks that BeautifulSoup's `find_all(['p','h2','h3','ul','ol'])` +
    `get_text(strip=True)` extraction produces (the parser itself is
    external library code); `clean_html_content` here receives that list
    and performs exactly the filtering and joining that the source does
    on the extracted blocks.
  * Machine-level details (HTTP, the real clock) are parameters: the
    remote API is a function from page number to a fetch outcome, and
    `datetime.now().isoformat()` is a string parameter `now`.
  * Python dict/JSON values that may be absent are `Option`s; a missing
    `title.rendered` / `content.rendered` key makes the per-post record
    processing raise, which the source's `except` clause turns into a
    `break` of the page loop.
-/

set_option maxHeartbeats 1000000
set_option maxRecDepth 100000

namespace SlobodenPecat

/-- One stored article record, as written to the per-category JSON file:
`{url, title, text, categories, page_id, scraped_at}`.  `url` mirrors
`post.get('link')`, which is `None` when the key is absent. -/
structure Article where
  url : Option String
  title : String
  text : String
  categories : List String
  page_id : Option Nat
  scraped_at : String
  deriving DecidableEq, Repr

/-- One raw post record of an API page.  `title`/`content` are `none`
when the `['title']['rendered']` / `['content']['rendered']` lookup would
raise `KeyError`; a present `content` is the list of extracted text
blocks of the rendered HTML (see module docstring). -/
structure RawPost where
  link : Option String
  title : Option String
  content : Option (List String)
  id : Option Nat
  deriving DecidableEq, Repr

/-- `pat` occurs as a prefix of `l` (`List.isPrefixOf`, spelled out). -/
def listPrefixOf : List Char → List Char → Bool
  | [], _ => true
  | _ :: _, [] => false
  | a :: as, b :: bs => a == b && listPrefixOf as bs

/-- `pat` occurs as a contiguous sublist of `l` — Python's `pat in t`
substring test on the underlying character lists. -/
def occursIn (pat : List Char) : List Char → Bool
  | [] => listPrefixOf pat []
  | c :: cs => listPrefixOf pat (c :: cs) || occursIn pat cs

/-- Python `pat in t` for strings. -/
def strIn (pat t : String) : Bool :=
  occursIn pat.data t.data

/-- The boilerplate test of `clean_html_content`:
`("Прочитајте" in t or "Read More" in t or "Ви препорачуваме" in t)`. -/
def boilerplateHit (t : String) : Bool :=
  strIn "Прочитајте" t || strIn "Read More" t || strIn "Ви препорачуваме" t

/-- The per-block keep decision of `clean_html_content`'s extraction
loop: `if len(t) < 100 and (...boilerplate...): continue` followed by
`if t: text_parts.append(t)`. -/
def keepBlock (t : String) : Bool :=
  if t.length < 100 && boilerplateHit t then false else t != ""

/-- The list `text_parts` built by `clean_html_content` from the
extracted block texts. -/
def clean_html_blocks (blocks : List String) : List String :=
  blocks.filter keepBlock

/-- `clean_html_content` on the extracted block texts:
`"\n\n".join(text_parts)`. -/
def clean_html_content (blocks : List String) : String :=
  String.intercalate "\n\n" (clean_html_blocks blocks)

/-- Outcome of one `requests.get` page fetch inside
`fetch_category_posts`, as the surrounding code observes it:
  * `pageEnd`    — `r.status_code == 400` (past the last page);
  * `fetchError` — any raised exception of the request / status check /
                   JSON decode (a transient failure);
  * `posts ps`   — a decoded JSON list of post records (possibly empty).
-/
inductive FetchResult where
  | pageEnd : FetchResult
  | fetchError : FetchResult
  | posts : List RawPost → FetchResult
  deriving DecidableEq, Repr

/-- `MAX_PAGES_PER_CATEGORY` from `scrape.py`. -/
def MAX_PAGES_PER_CATEGORY : Nat := 9999

/-- Builds the article dict of `fetch_category_posts`'s inner loop for a
post whose `title`/`content` lookups succeed. -/
def buildArticle (cat now : String) (link : Option String) (t : String)
    (c : List String) (pid : Option Nat) : Article :=
  { url := link, title := t, text := clean_html_content c,
    categories := [cat], page_id := pid, scraped_at := now }

/-- The `for post in posts` body of `fetch_category_posts` for one page:
threads the `existing_urls` set, accumulates `new_articles` for this
page, and reports whether record processing raised (missing
`title.rendered` / `content.rendered`), which the source's `except`
turns into a `break` of the page loop.  Returns
`(articles appended, updated url set, raised?)`. -/
def processPage (cat now : String) :
    List (Option String) → List RawPost →
      List Article × List (Option String) × Bool
  | urls, [] => ([], urls, false)
  | urls, p :: ps =>
    if p.link ∈ urls then
      processPage cat now urls ps
    else
      match p.title, p.content with
      | some t, some c =>
        let a := buildArticle cat now p.link t c p.id
        let r := processPage cat now (p.link :: urls) ps
        (a :: r.1, r.2.1, r.2.2)
      | _, _ => ([], urls, true)

/-- The `for page in range(1, MAX_PAGES_PER_CATEGORY + 1)` loop of
`fetch_category_posts`.  `fuel` is the number of remaining loop
iterations, `page` the next page number.  Returns
`(new_articles, final url set, number of fetch calls performed)`.
A 400 status, a raised exception, an empty post list, or a record
processing error all `break`. -/
def harvestPages (cat now : String) (remote : Nat → FetchResult) :
    Nat → Nat → List (Option String) →
      List Article × List (Option String) × Nat
  | 0, _, urls => ([], urls, 0)
  | fuel + 1, page, urls =>
    match remote page with
    | .pageEnd => ([], urls, 1)
    | .fetchError => ([], urls, 1)
    | .posts [] => ([], urls, 1)
    | .posts (p :: ps) =>
      match processPage cat now urls (p :: ps) with
      | (arts, urls2, true) => (arts, urls2, 1)
      | (arts, urls2, false) =>
        let r := harvestPages cat now remote fuel (page + 1) urls2
        (arts ++ r.1, r.2.1, r.2.2 + 1)

/-- `fetch_category_posts(category_name, category_id, category_file)`
with the on-disk load already performed: `existing` is the loaded
collection, `remote` the API.  Returns `(existing_data + new_articles,
len(new_articles))` exactly as the source's final two lines do. -/
def fetch_category_posts (cat now : String) (remote : Nat → FetchResult)
    (existing : List Article) : List Article × Nat :=
  let existing_urls := existing.map (·.url)
  let r := harvestPages cat now remote MAX_PAGES_PER_CATEGORY 1 existing_urls
  (existing ++ r.1, r.1.length)

/-- What `load_data` can observe about a category file: absent
(`os.path.exists` false), raising on open/read, raising inside
`json.load`, or decoding to a collection. -/
inductive FileRead where
  | absent : FileRead
  | readError : FileRead
  | invalidJson : FileRead
  | valid : List Article → FileRead
  deriving DecidableEq, Repr

/-- `load_data(filepath)`: returns the decoded collection, `[]` when the
file is absent, and `[]` from the bare `except` when reading or JSON
decoding raises.  Totality of this function is the model of "never
raises a fatal error". -/
def load_data : FileRead → List Article
  | .absent => []
  | .readError => []
  | .invalidJson => []
  | .valid d => d

/-- One observable file-system operation of `save_data`:  Python's
`open(filepath, 'w')` truncates the file to empty before anything is
written, then `json.dump` writes the serialization sequentially. -/
inductive FsOp where
  | truncate : FsOp
  | write : Char → FsOp
  deriving DecidableEq, Repr

/-- Effect of one file-system operation on the current file content. -/
def applyOp (content : String) : FsOp → String
  | .truncate => ""
  | .write c => content.push c

/-- File content after running a sequence of operations on `content`. -/
def runOps (content : String) (ops : List FsOp) : String :=
  ops.foldl applyOp content

/-- The operation sequence of `save_data(data, filepath)` for a
serialized representation `s` of `data`: truncate at `open(..., 'w')`,
then write `s` character by character.  A save that fails mid-way
executes a proper prefix of this sequence. -/
def save_data_ops (s : String) : List FsOp :=
  FsOp.truncate :: s.data.map FsOp.write

/-- The per-category body of `main()`: harvest with the loaded store,
then save.  `remotes` gives each category's API view and `stores` the
loaded file content per category; the returned list is the sequence of
`save_data` calls (category name, saved collection), followed by the
`total_added` and `total_articles` counters. -/
def mainStep (remotes : String → Nat → FetchResult)
    (stores : String → List Article) (now : String)
    (acc : List (String × List Article) × Nat × Nat) (ci : String × Nat) :
    List (String × List Article) × Nat × Nat :=
  let r := fetch_category_posts ci.1 now (remotes ci.1) (stores ci.1)
  (acc.1 ++ [(ci.1, r.1)], acc.2.1 + r.2, acc.2.2 + r.1.length)

/-- `main()`: iterates the category catalog, harvesting and saving each
category in turn. -/
def mainRun (catalog : List (String × Nat))
    (remotes : String → Nat → FetchResult)
    (stores : String → List Article) (now : String) :
    List (String × List Article) × Nat × Nat :=
  catalog.foldl (mainStep remotes stores now) ([], 0, 0)

/-- Python truthiness of an article's `url` value in
`load_all_categories`: `if url and ...` is true exactly for a present,
non-empty string. -/
def truthyUrl : Option String → Option String
  | some s => if s = "" then none else some s
  | none => none

/-- The `for article in articles` body of
`consolidate_data.load_all_categories`: state is
`(all_articles, seen_urls, new_count, duplicate_count)`.
`if url and url not in seen_urls:` appends and records the url;
`elif url:` counts a duplicate; a falsy url does neither. -/
def mergeArticleStep (st : List Article × List String × Nat × Nat)
    (a : Article) : List Article × List String × Nat × Nat :=
  match truthyUrl a.url with
  | some u =>
    if u ∈ st.2.1 then (st.1, st.2.1, st.2.2.1, st.2.2.2 + 1)
    else (st.1 ++ [a], u :: st.2.1, st.2.2.1 + 1, st.2.2.2)
  | none => st

/-- The per-file body of `load_all_categories`: state is
`(all_articles, seen_urls, category_counts, duplicate_count)`; each file
restarts `new_count` at 0 and records
`category_counts[name] = (original, unique)`. -/
def mergeFileStep (acc : List Article × List String ×
      List (String × Nat × Nat) × Nat) (file : String × List Article) :
    List Article × List String × List (String × Nat × Nat) × Nat :=
  let r := file.2.foldl mergeArticleStep (acc.1, acc.2.1, 0, acc.2.2.2)
  (r.1, r.2.1, acc.2.2.1 ++ [(file.1, file.2.length, r.2.2.1)], r.2.2.2)

/-- Code-point lexicographic `≤` on character lists — Python's string
comparison. -/
def lexLeChars : List Char → List Char → Bool
  | [], _ => true
  | _ :: _, [] => false
  | a :: as, b :: bs => if a = b then lexLeChars as bs else decide (a < b)

/-- Python's `s <= t` on strings. -/
def strLe (s t : String) : Bool :=
  lexLeChars s.data t.data

/-- Stable insertion of a file entry into a list sorted by `.json`
filename: the new entry goes after all entries whose filename is `≤`
its own, as Python's stable `sorted` does. -/
def insertByName (x : String × List Article) :
    List (String × List Article) → List (String × List Article)
  | [] => [x]
  | y :: ys =>
    if strLe (y.1 ++ ".json") (x.1 ++ ".json") then y :: insertByName x ys
    else x :: y :: ys

/-- The iteration order of `load_all_categories`:
`sorted([f for f in os.listdir(data_dir) if f.endswith('.json')])`, i.e.
the input files sorted (stably) by their `<name>.json` filename. -/
def sortedInputs (inputs : List (String × List Article)) :
    List (String × List Article) :=
  inputs.foldl (fun acc x => insertByName x acc) []

/-- `consolidate_data.load_all_categories`, with the directory listing
given as `inputs` (category name, decoded articles).  Returns
`(all_articles, category_counts, duplicate_count)` where each counts
entry is `(name, original, unique)`. -/
def load_all_categories (inputs : List (String × List Article)) :
    List Article × List (String × Nat × Nat) × Nat :=
  let r := (sortedInputs inputs).foldl mergeFileStep ([], [], [], 0)
  (r.1, r.2.2.1, r.2.2.2)

/-- All articles of all inputs, in the merger's iteration order. -/
def flatSorted (inputs : List (String × List Article)) : List Article :=
  (sortedInputs inputs).flatMap Prod.snd

/-- The number of distinct (present, non-empty) url values across all
input collections. -/
def distinctUrlCount (inputs : List (String × List Article)) : Nat :=
  (((flatSorted inputs).filterMap (fun a => truthyUrl a.url)).dedup).length

/-- `url` is present and non-empty. -/
def urlPresent : Option String → Bool
  | some s => s != ""
  | none => false

@[simp]
theorem buildArticle_url (cat now : String) (l : Option String)
    (t : String) (c : List String) (i : Option Nat) :
    (buildArticle cat now l t c i).url = l := rfl

/-- The url set after a page is the url set before it together with the
urls of the articles the page appended. -/
theorem pp_urls_iff (cat now : String) (ps : List RawPost) :
    ∀ urls x, x ∈ (processPage cat now urls ps).2.1 ↔
      x ∈ urls ∨ x ∈ (processPage cat now urls ps).1.map (·.url) := by
  induction ps with
  | nil => intro urls x; simp [processPage]
  | cons p ps ih =>
    intro urls x
    simp only [processPage]
    split
    · simpa using ih urls x
    · split
      · have h := ih (p.link :: urls) x
        simp only [List.mem_cons] at h
        simp only [List.map_cons, buildArticle_url, List.mem_cons]
        rw [h]
        tauto
      · simp

/-- Every article a page appends has a url that was not yet in the url
set, and the appended urls are pairwise distinct. -/
theorem pp_fresh (cat now : String) (ps : List RawPost) :
    ∀ urls, (∀ a ∈ (processPage cat now urls ps).1, a.url ∉ urls) ∧
      ((processPage cat now urls ps).1.map (·.url)).Nodup := by
  induction ps with
  | nil => intro urls; simp [processPage]
  | cons p ps ih =>
    intro urls
    simp only [processPage]
    split
    · exact ih urls
    · rename_i hnot
      split
      · rename_i t c _
        obtain ⟨ihFresh, ihNodup⟩ := ih (p.link :: urls)
        constructor
        · intro a ha
          rcases List.mem_cons.mp ha with rfl | ha
          · simpa using hnot
          · exact fun hmem => ihFresh a ha (List.mem_cons_of_mem _ hmem)
        · simp only [List.map_cons, buildArticle_url, List.nodup_cons]
          refine ⟨?_, ihNodup⟩
          intro hmem
          obtain ⟨a, ha, hurl⟩ := List.mem_map.mp hmem
          exact ihFresh a ha (hurl ▸ List.mem_cons_self _ _)
      · simp

/-- If every post of a page has its `title.rendered` and
`content.rendered`, processing the page does not raise. -/
theorem pp_noerror (cat now : String) (ps : List RawPost)
    (hok : ∀ p ∈ ps, p.title ≠ none ∧ p.content ≠ none) :
    ∀ urls, (processPage cat now urls ps).2.2 = false := by
  induction ps with
  | nil => intro urls; simp [processPage]
  | cons p ps ih =>
    intro urls
    have hp := hok p (List.mem_cons_self _ _)
    have hps : ∀ q ∈ ps, q.title ≠ none ∧ q.content ≠ none :=
      fun q hq => hok q (List.mem_cons_of_mem _ hq)
    simp only [processPage]
    split
    · exact ih hps urls
    · split
      · exact ih hps (p.link :: urls)
      · rename_i hmiss
        rcases ht : p.title with _ | t
        · exact absurd ht hp.1
        · rcases hc : p.content with _ | c
          · exact absurd hc hp.2
          · exact (hmiss t c ht hc).elim

/-- After a page that did not raise, every post's link of that page is
in the resulting url set. -/
theorem pp_link_mem (cat now : String) (ps : List RawPost) :
    ∀ urls, (processPage cat now urls ps).2.2 = false →
      ∀ p ∈ ps, p.link ∈ (processPage cat now urls ps).2.1 := by
  induction ps with
  | nil => intro urls _ p hp; simp at hp
  | cons p ps ih =>
    intro urls herr q hq
    by_cases hmem : p.link ∈ urls
    · rw [show processPage cat now urls (p :: ps) = processPage cat now urls ps
        from by simp [processPage, hmem]] at herr ⊢
      rcases List.mem_cons.mp hq with rfl | hq
      · exact (pp_urls_iff cat now ps urls q.link).mpr (Or.inl hmem)
      · exact ih urls herr q hq
    · cases ht : p.title with
      | none => simp [processPage, hmem, ht] at herr
      | some t =>
        cases hc : p.content with
        | none => simp [processPage, hmem, ht, hc] at herr
        | some c =>
          have hred : processPage cat now urls (p :: ps) =
              (buildArticle cat now p.link t c p.id ::
                 (processPage cat now (p.link :: urls) ps).1,
               (processPage cat now (p.link :: urls) ps).2.1,
               (processPage cat now (p.link :: urls) ps).2.2) := by
            simp [processPage, hmem, ht, hc]
          rw [hred] at herr ⊢
          rcases List.mem_cons.mp hq with rfl | hq
          · exact (pp_urls_iff cat now ps (q.link :: urls) q.link).mpr
              (Or.inl (List.mem_cons_self _ _))
          · exact ih (p.link :: urls) herr q hq

theorem pp_cons_skip (cat now : String) (urls : List (Option String))
    (p : RawPost) (ps : List RawPost) (hmem : p.link ∈ urls) :
    processPage cat now urls (p :: ps) = processPage cat now urls ps := by
  simp [processPage, hmem]

theorem pp_cons_build (cat now : String) (urls : List (Option String))
    (p : RawPost) (ps : List RawPost) (hmem : p.link ∉ urls)
    (t : String) (c : List String) (ht : p.title = some t)
    (hc : p.content = some c) :
    processPage cat now urls (p :: ps) =
      (buildArticle cat now p.link t c p.id ::
         (processPage cat now (p.link :: urls) ps).1,
       (processPage cat now (p.link :: urls) ps).2.1,
       (processPage cat now (p.link :: urls) ps).2.2) := by
  simp [processPage, hmem, ht, hc]

theorem pp_cons_err (cat now : String) (urls : List (Option String))
    (p : RawPost) (ps : List RawPost) (hmem : p.link ∉ urls)
    (hbad : p.title = none ∨ p.content = none) :
    processPage cat now urls (p :: ps) = ([], urls, true) := by
  rcases hbad with hb | hb
  · simp [processPage, hmem, hb]
  · cases ht : p.title with
    | none => simp [processPage, hmem, ht]
    | some t => simp [processPage, hmem, ht, hb]

/-- On a second pass over the same page with a url set that already
contains the first pass's url set and all urls the first pass appended,
every post is skipped, as long as the first pass did not raise. -/
theorem pp_skip_all (cat now cat' now' : String) (ps : List RawPost) :
    ∀ urls urls', (processPage cat now urls ps).2.2 = false →
      (∀ x ∈ urls, x ∈ urls') →
      (∀ u ∈ (processPage cat now urls ps).1.map (·.url), u ∈ urls') →
      processPage cat' now' urls' ps = ([], urls', false) := by
  induction ps with
  | nil => intro urls urls' _ _ _; simp [processPage]
  | cons p ps ih =>
    intro urls urls' herr hsub harts
    by_cases hmem : p.link ∈ urls
    · rw [pp_cons_skip cat now urls p ps hmem] at herr harts
      rw [pp_cons_skip cat' now' urls' p ps (hsub _ hmem)]
      exact ih urls urls' herr hsub harts
    · cases ht : p.title with
      | none => rw [pp_cons_err cat now urls p ps hmem (Or.inl ht)] at herr
                simp at herr
      | some t =>
        cases hc : p.content with
        | none => rw [pp_cons_err cat now urls p ps hmem (Or.inr hc)] at herr
                  simp at herr
        | some c =>
          rw [pp_cons_build cat now urls p ps hmem t c ht hc]
            at herr harts
          have hlink : p.link ∈ urls' := by
            apply harts
            simp
          rw [pp_cons_skip cat' now' urls' p ps hlink]
          refine ih (p.link :: urls) urls' herr ?_ ?_
          · intro x hx
            rcases List.mem_cons.mp hx with rfl | hx
            · exact hlink
            · exact hsub x hx
          · intro u hu
            exact harts u (by simpa using Or.inr hu)

/-- On a second pass over a page whose first pass raised, with a url set
that is exactly the first pass's url set plus the urls it appended, the
second pass appends nothing and raises at the same post. -/
theorem pp_rerun_err (cat now cat' now' : String) (ps : List RawPost) :
    ∀ urls urls', (processPage cat now urls ps).2.2 = true →
      (∀ x, x ∈ urls' ↔
        x ∈ urls ∨ x ∈ (processPage cat now urls ps).1.map (·.url)) →
      processPage cat' now' urls' ps = ([], urls', true) := by
  induction ps with
  | nil => intro urls urls' herr _; simp [processPage] at herr
  | cons p ps ih =>
    intro urls urls' herr hiff
    by_cases hmem : p.link ∈ urls
    · rw [pp_cons_skip cat now urls p ps hmem] at herr hiff
      rw [pp_cons_skip cat' now' urls' p ps ((hiff _).mpr (Or.inl hmem))]
      exact ih urls urls' herr hiff
    · cases ht : p.title with
      | none =>
        rw [pp_cons_err cat now urls p ps hmem (Or.inl ht)] at herr hiff
        have hnot : p.link ∉ urls' := by
          intro h
          rcases (hiff _).mp h with h | h
          · exact hmem h
          · simp at h
        exact pp_cons_err cat' now' urls' p ps hnot (Or.inl ht)
      | some t =>
        cases hc : p.content with
        | none =>
          rw [pp_cons_err cat now urls p ps hmem (Or.inr hc)] at herr hiff
          have hnot : p.link ∉ urls' := by
            intro h
            rcases (hiff _).mp h with h | h
            · exact hmem h
            · simp at h
          exact pp_cons_err cat' now' urls' p ps hnot (Or.inr hc)
        | some c =>
          rw [pp_cons_build cat now urls p ps hmem t c ht hc] at herr hiff
          have hlink : p.link ∈ urls' := by
            apply (hiff _).mpr
            right
            simp
          rw [pp_cons_skip cat' now' urls' p ps hlink]
          refine ih (p.link :: urls) urls' herr ?_
          intro x
          rw [hiff x]
          simp only [List.map_cons, buildArticle_url, List.mem_cons]
          tauto

/-- Every article a page appends is built from one of the page's posts:
its url is one of the posts' links. -/
theorem pp_url_from_posts (cat now : String) (ps : List RawPost) :
    ∀ urls a, a ∈ (processPage cat now urls ps).1 →
      a.url ∈ ps.map (·.link) := by
  induction ps with
  | nil => intro urls a ha; simp [processPage] at ha
  | cons p ps ih =>
    intro urls a ha
    by_cases hmem : p.link ∈ urls
    · rw [pp_cons_skip cat now urls p ps hmem] at ha
      exact List.mem_cons_of_mem _ (ih urls a ha)
    · cases ht : p.title with
      | none => rw [pp_cons_err cat now urls p ps hmem (Or.inl ht)] at ha
                simp at ha
      | some t =>
        cases hc : p.content with
        | none => rw [pp_cons_err cat now urls p ps hmem (Or.inr hc)] at ha
                  simp at ha
        | some c =>
          rw [pp_cons_build cat now urls p ps hmem t c ht hc] at ha
          rcases List.mem_cons.mp ha with rfl | ha
          · simp
          · exact List.mem_cons_of_mem _ (ih (p.link :: urls) a ha)

/-- A record-processing failure mid-page keeps every article already
built from the posts before the failure point: the page's result is
exactly the result of the good prefix, with the raised flag set. -/
theorem pp_partial_keep (cat now : String) (good : List RawPost)
    (bad : RawPost) (rest : List RawPost)
    (hbad : bad.title = none ∨ bad.content = none) :
    ∀ urls, (∀ p ∈ good, p.title ≠ none ∧ p.content ≠ none) →
      bad.link ∉ urls → bad.link ∉ good.map (·.link) →
      processPage cat now urls (good ++ bad :: rest) =
        ((processPage cat now urls good).1,
         (processPage cat now urls good).2.1, true) := by
  induction good with
  | nil =>
    intro urls _ hnot _
    rw [List.nil_append, pp_cons_err cat now urls bad rest hnot hbad]
    simp [processPage]
  | cons p good ih =>
    intro urls hok hnot hfresh
    have hp := hok p (List.mem_cons_self _ _)
    have hok' : ∀ q ∈ good, q.title ≠ none ∧ q.content ≠ none :=
      fun q hq => hok q (List.mem_cons_of_mem _ hq)
    have hfresh' : bad.link ∉ good.map (·.link) := by
      intro h
      exact hfresh (List.mem_cons_of_mem _ h)
    by_cases hmem : p.link ∈ urls
    · rw [List.cons_append, pp_cons_skip cat now urls p _ hmem,
        pp_cons_skip cat now urls p good hmem]
      exact ih urls hok' hnot hfresh'
    · cases ht : p.title with
      | none => exact absurd ht hp.1
      | some t =>
        cases hc : p.content with
        | none => exact absurd hc hp.2
        | some c =>
          rw [List.cons_append,
            pp_cons_build cat now urls p _ hmem t c ht hc,
            pp_cons_build cat now urls p good hmem t c ht hc]
          have hnot' : bad.link ∉ p.link :: urls := by
            intro h
            rcases List.mem_cons.mp h with h | h
            · exact hfresh (by simp [h])
            · exact hnot h
          rw [ih (p.link :: urls) hok' hnot' hfresh']

theorem hp_pageEnd (cat now : String) (remote : Nat → FetchResult)
    (fuel page : Nat) (urls : List (Option String))
    (hrem : remote page = .pageEnd) :
    harvestPages cat now remote (fuel + 1) page urls = ([], urls, 1) := by
  simp [harvestPages, hrem]

theorem hp_fetchError (cat now : String) (remote : Nat → FetchResult)
    (fuel page : Nat) (urls : List (Option String))
    (hrem : remote page = .fetchError) :
    harvestPages cat now remote (fuel + 1) page urls = ([], urls, 1) := by
  simp [harvestPages, hrem]

theorem hp_posts_nil (cat now : String) (remote : Nat → FetchResult)
    (fuel page : Nat) (urls : List (Option String))
    (hrem : remote page = .posts []) :
    harvestPages cat now remote (fuel + 1) page urls = ([], urls, 1) := by
  simp [harvestPages, hrem]

theorem hp_posts_err (cat now : String) (remote : Nat → FetchResult)
    (fuel page : Nat) (urls : List (Option String)) (p : RawPost)
    (ps : List RawPost) (arts : List Article)
    (urls2 : List (Option String))
    (hrem : remote page = .posts (p :: ps))
    (hpp : processPage cat now urls (p :: ps) = (arts, urls2, true)) :
    harvestPages cat now remote (fuel + 1) page urls = (arts, urls2, 1) := by
  simp [harvestPages, hrem, hpp]

theorem hp_posts_ok (cat now : String) (remote : Nat → FetchResult)
    (fuel page : Nat) (urls : List (Option String)) (p : RawPost)
    (ps : List RawPost) (arts : List Article)
    (urls2 : List (Option String))
    (hrem : remote page = .posts (p :: ps))
    (hpp : processPage cat now urls (p :: ps) = (arts, urls2, false)) :
    harvestPages cat now remote (fuel + 1) page urls =
      (arts ++ (harvestPages cat now remote fuel (page + 1) urls2).1,
       (harvestPages cat now remote fuel (page + 1) urls2).2.1,
       (harvestPages cat now remote fuel (page + 1) urls2).2.2 + 1) := by
  simp [harvestPages, hrem, hpp]

/-- The loop's final url set is the initial one plus the urls of all new
articles. -/
theorem hp_urls_iff (cat now : String) (remote : Nat → FetchResult) :
    ∀ fuel page urls x,
      x ∈ (harvestPages cat now remote fuel page urls).2.1 ↔
        x ∈ urls ∨
          x ∈ (harvestPages cat now remote fuel page urls).1.map (·.url) := by
  intro fuel
  induction fuel with
  | zero => intro page urls x; simp [harvestPages]
  | succ fuel ih =>
    intro page urls x
    cases hrem : remote page with
    | pageEnd => rw [hp_pageEnd cat now remote fuel page urls hrem]; simp
    | fetchError => rw [hp_fetchError cat now remote fuel page urls hrem]; simp
    | posts ps =>
      cases ps with
      | nil => rw [hp_posts_nil cat now remote fuel page urls hrem]; simp
      | cons p ps =>
        rcases hpp : processPage cat now urls (p :: ps) with ⟨arts, urls2, b⟩
        cases b with
        | true =>
          rw [hp_posts_err cat now remote fuel page urls p ps arts urls2
            hrem hpp]
          have := pp_urls_iff cat now (p :: ps) urls x
          rw [hpp] at this
          simpa using this
        | false =>
          rw [hp_posts_ok cat now remote fuel page urls p ps arts urls2
            hrem hpp]
          have h1 := ih (page + 1) urls2 x
          have h2 := pp_urls_iff cat now (p :: ps) urls x
          rw [hpp] at h2
          simp only at h1 h2
          simp only [List.map_append, List.mem_append]
          rw [h1, h2]
          tauto

/-- Every article the loop appends has a url that was not in the initial
url set, and the appended urls are pairwise distinct. -/
theorem hp_fresh (cat now : String) (remote : Nat → FetchResult) :
    ∀ fuel page urls,
      (∀ a ∈ (harvestPages cat now remote fuel page urls).1,
        a.url ∉ urls) ∧
      ((harvestPages cat now remote fuel page urls).1.map (·.url)).Nodup := by
  intro fuel
  induction fuel with
  | zero => intro page urls; simp [harvestPages]
  | succ fuel ih =>
    intro page urls
    cases hrem : remote page with
    | pageEnd => rw [hp_pageEnd cat now remote fuel page urls hrem]; simp
    | fetchError => rw [hp_fetchError cat now remote fuel page urls hrem]; simp
    | posts ps =>
      cases ps with
      | nil => rw [hp_posts_nil cat now remote fuel page urls hrem]; simp
      | cons p ps =>
        rcases hpp : processPage cat now urls (p :: ps) with ⟨arts, urls2, b⟩
        have hfr := pp_fresh cat now (p :: ps) urls
        rw [hpp] at hfr
        simp only at hfr
        cases b with
        | true =>
          rw [hp_posts_err cat now remote fuel page urls p ps arts urls2
            hrem hpp]
          exact hfr
        | false =>
          rw [hp_posts_ok cat now remote fuel page urls p ps arts urls2
            hrem hpp]
          obtain ⟨ihFresh, ihNodup⟩ := ih (page + 1) urls2
          have hmono : ∀ x, x ∈ urls → x ∈ urls2 := by
            intro x hx
            have := pp_urls_iff cat now (p :: ps) urls x
            rw [hpp] at this
            exact this.mpr (Or.inl hx)
          have hartm : ∀ u, u ∈ arts.map (·.url) → u ∈ urls2 := by
            intro u hu
            have := pp_urls_iff cat now (p :: ps) urls u
            rw [hpp] at this
            exact this.mpr (Or.inr hu)
          constructor
          · intro a ha
            rcases List.mem_append.mp ha with ha | ha
            · exact hfr.1 a ha
            · intro hx
              exact ihFresh a ha (hmono _ hx)
          · rw [List.map_append, List.nodup_append]
            refine ⟨hfr.2, ihNodup, ?_⟩
            intro u hu hu2
            obtain ⟨a, ha, rfl⟩ := List.mem_map.mp hu2
            exact ihFresh a ha (hartm _ hu)

/-- Re-running the loop with a url set that is exactly the first run's
initial url set plus the urls of all articles the first run appended
appends no article and leaves the url set unchanged. -/
theorem hp_rerun (cat now cat' now' : String) (remote : Nat → FetchResult) :
    ∀ fuel page urls urls',
      (∀ x, x ∈ urls' ↔ x ∈ urls ∨
        x ∈ (harvestPages cat now remote fuel page urls).1.map (·.url)) →
      (harvestPages cat' now' remote fuel page urls').1 = [] ∧
        (harvestPages cat' now' remote fuel page urls').2.1 = urls' := by
  intro fuel
  induction fuel with
  | zero => intro page urls urls' _; simp [harvestPages]
  | succ fuel ih =>
    intro page urls urls' hiff
    cases hrem : remote page with
    | pageEnd => rw [hp_pageEnd cat' now' remote fuel page urls' hrem]
                 exact ⟨rfl, rfl⟩
    | fetchError => rw [hp_fetchError cat' now' remote fuel page urls' hrem]
                    exact ⟨rfl, rfl⟩
    | posts ps =>
      cases ps with
      | nil => rw [hp_posts_nil cat' now' remote fuel page urls' hrem]
               exact ⟨rfl, rfl⟩
      | cons p ps =>
        rcases hpp : processPage cat now urls (p :: ps) with ⟨arts, urls2, b⟩
        cases b with
        | true =>
          rw [hp_posts_err cat now remote fuel page urls p ps arts urls2
            hrem hpp] at hiff
          have hre := pp_rerun_err cat now cat' now' (p :: ps) urls urls'
            (by rw [hpp]) (by intro x; rw [hiff x, hpp])
          rw [hp_posts_err cat' now' remote fuel page urls' p ps [] urls'
            hrem hre]
          exact ⟨rfl, rfl⟩
        | false =>
          rw [hp_posts_ok cat now remote fuel page urls p ps arts urls2
            hrem hpp] at hiff
          have hsk := pp_skip_all cat now cat' now' (p :: ps) urls urls'
            (by rw [hpp]) ?_ ?_
          · rw [hp_posts_ok cat' now' remote fuel page urls' p ps [] urls'
              hrem hsk]
            have hiff2 : ∀ x, x ∈ urls' ↔ x ∈ urls2 ∨
                x ∈ (harvestPages cat now remote fuel (page + 1)
                  urls2).1.map (·.url) := by
              intro x
              have h2 := pp_urls_iff cat now (p :: ps) urls x
              rw [hpp] at h2
              simp only at h2
              rw [hiff x, h2]
              simp only [List.map_append, List.mem_append]
              tauto
            obtain ⟨h1, h2⟩ := ih (page + 1) urls2 urls' hiff2
            simp [h1, h2]
          · intro x hx
            exact (hiff x).mpr (Or.inl hx)
          · intro u hu
            rw [hpp] at hu
            simp only at hu
            refine (hiff u).mpr (Or.inr ?_)
            simp only [List.map_append, List.mem_append]
            exact Or.inl hu

/-- Every article the loop appends is built from a post of some fetched
page: its url is one of that page's links. -/
theorem hp_url_from_posts (cat now : String) (remote : Nat → FetchResult) :
    ∀ fuel page urls a,
      a ∈ (harvestPages cat now remote fuel page urls).1 →
      ∃ k qs, remote k = FetchResult.posts qs ∧
        a.url ∈ qs.map (·.link) := by
  intro fuel
  induction fuel with
  | zero => intro page urls a ha; simp [harvestPages] at ha
  | succ fuel ih =>
    intro page urls a ha
    cases hrem : remote page with
    | pageEnd => rw [hp_pageEnd cat now remote fuel page urls hrem] at ha
                 simp at ha
    | fetchError => rw [hp_fetchError cat now remote fuel page urls hrem] at ha
                    simp at ha
    | posts ps =>
      cases ps with
      | nil => rw [hp_posts_nil cat now remote fuel page urls hrem] at ha
               simp at ha
      | cons p ps =>
        rcases hpp : processPage cat now urls (p :: ps) with ⟨arts, urls2, b⟩
        have hfrom : ∀ x ∈ arts, x.url ∈ (p :: ps).map (·.link) := by
          intro x hx
          have := pp_url_from_posts cat now (p :: ps) urls x
          rw [hpp] at this
          exact this hx
        cases b with
        | true =>
          rw [hp_posts_err cat now remote fuel page urls p ps arts urls2
            hrem hpp] at ha
          exact ⟨page, p :: ps, hrem, hfrom a ha⟩
        | false =>
          rw [hp_posts_ok cat now remote fuel page urls p ps arts urls2
            hrem hpp] at ha
          rcases List.mem_append.mp ha with ha | ha
          · exact ⟨page, p :: ps, hrem, hfrom a ha⟩
          · exact ih (page + 1) urls2 a ha

/-- C1: running harvest a second time immediately after a first run,
with the remote API returning the same pages both times and the first
run's saved collection loaded as the existing collection, returns
`new_count == 0` and a collection equal to the one saved by the first
run (for every category, clock values, remote, and prior state). -/
theorem claim_C1 (cat now now2 : String) (remote : Nat → FetchResult)
    (existing : List Article) :
    fetch_category_posts cat now2 remote
        (fetch_category_posts cat now remote existing).1 =
      ((fetch_category_posts cat now remote existing).1, 0) := by
  obtain ⟨h1, _⟩ := hp_rerun cat now cat now2 remote
    MAX_PAGES_PER_CATEGORY 1 (existing.map (·.url))
    ((existing ++ (harvestPages cat now remote MAX_PAGES_PER_CATEGORY 1
      (existing.map (·.url))).1).map (·.url))
    (by intro x; simp [List.map_append])
  simp only [fetch_category_posts]
  rw [h1]
  simp

/-- The concrete remote used to refute the non-empty-url conjunct of C2:
page 1 holds a single post whose `link` key is absent
(`post.get('link')` is `None`), later pages are empty. -/
def cexRemoteC2 : Nat → FetchResult := fun k =>
  if k = 1 then .posts [⟨none, some "Наслов", some ["Текст од статија"], some 7⟩]
  else .posts []

/-- C2, counterexample to the claim as stated: with an empty (hence
pairwise-distinct) existing collection, a fetched post whose `link` is
absent produces a stored article whose url is not a non-empty string —
the claim's "every article's url is non-empty" conjunct fails. -/
theorem claim_C2_counterexample :
    ((([] : List Article).map (·.url)).Nodup) ∧
      ¬ (∀ a ∈ (fetch_category_posts "makedonija" "2026-10-12" cexRemoteC2
        []).1, urlPresent a.url = true) := by
  refine ⟨by simp, ?_⟩
  decide

/-- C2, amended: for every harvest run whose loaded existing collection
contains pairwise-distinct urls, the returned collection contains no two
articles with the same url — even when the same url occurs on multiple
fetched pages or multiple times within one page; and, provided every
existing article's url and every fetched post's link is a present,
non-empty string, every article's url is non-empty. -/
theorem claim_C2 (cat now : String) (remote : Nat → FetchResult)
    (existing : List Article)
    (hnd : (existing.map (·.url)).Nodup) :
    (((fetch_category_posts cat now remote existing).1.map (·.url)).Nodup) ∧
    ((∀ a ∈ existing, urlPresent a.url = true) →
      (∀ k qs, remote k = FetchResult.posts qs →
        ∀ p ∈ qs, urlPresent p.link = true) →
      ∀ a ∈ (fetch_category_posts cat now remote existing).1,
        urlPresent a.url = true) := by
  obtain ⟨hFresh, hNodup⟩ := hp_fresh cat now remote
    MAX_PAGES_PER_CATEGORY 1 (existing.map (·.url))
  constructor
  · simp only [fetch_category_posts, List.map_append]
    rw [List.nodup_append]
    refine ⟨hnd, hNodup, ?_⟩
    intro u hu hu2
    obtain ⟨a, ha, rfl⟩ := List.mem_map.mp hu2
    exact hFresh a ha hu
  · intro hex hrem a ha
    simp only [fetch_category_posts, List.mem_append] at ha
    rcases ha with ha | ha
    · exact hex a ha
    · obtain ⟨k, qs, hk, hurl⟩ := hp_url_from_posts cat now remote
        MAX_PAGES_PER_CATEGORY 1 (existing.map (·.url)) a ha
      obtain ⟨p, hp, hpl⟩ := List.mem_map.mp hurl
      rw [← hpl]
      exact hrem k qs hk p hp

/-- Witness for C2 at a concrete input: one existing article with url
`"u"`, a remote whose only page repeats that url and adds one fresh
post. -/
theorem claim_C2_witness :
    ((([⟨some "u", "t", "x", ["c"], none, "s"⟩] : List Article).map
        (·.url)).Nodup) ∧
    ((((fetch_category_posts "c" "s2" (fun k =>
        if k = 1 then .posts [⟨some "u", some "t2", some ["y"], none⟩,
                              ⟨some "v", some "t3", some ["z"], none⟩]
        else FetchResult.pageEnd)
        [⟨some "u", "t", "x", ["c"], none, "s"⟩]).1.map (·.url)).Nodup) ∧
      ((∀ a ∈ ([⟨some "u", "t", "x", ["c"], none, "s"⟩] : List Article),
          urlPresent a.url = true) →
        (∀ k qs, (fun k => if k = 1 then
            FetchResult.posts [⟨some "u", some "t2", some ["y"], none⟩,
                               ⟨some "v", some "t3", some ["z"], none⟩]
          else FetchResult.pageEnd) k = FetchResult.posts qs →
          ∀ p ∈ qs, urlPresent p.link = true) →
        ∀ a ∈ (fetch_category_posts "c" "s2" (fun k =>
            if k = 1 then .posts [⟨some "u", some "t2", some ["y"], none⟩,
                                  ⟨some "v", some "t3", some ["z"], none⟩]
            else FetchResult.pageEnd)
          [⟨some "u", "t", "x", ["c"], none, "s"⟩]).1,
          urlPresent a.url = true)) :=
  ⟨by decide, claim_C2 "c" "s2" _ _ (by decide)⟩

/-- In a collection with pairwise-distinct urls, looking up any member's
url finds exactly that member. -/
theorem find_url_nodup (l : List Article)
    (hnd : (l.map (·.url)).Nodup) (a : Article) (ha : a ∈ l) :
    l.find? (fun b => b.url == a.url) = some a := by
  induction l with
  | nil => simp at ha
  | cons b l ih =>
    simp only [List.map_cons, List.nodup_cons] at hnd
    rcases List.mem_cons.mp ha with rfl | ha
    · rw [List.find?_cons_of_pos _ (by simp)]
    · have hne : (b.url == a.url) = false := by
        rw [beq_eq_false_iff_ne]
        intro h
        exact hnd.1 (h ▸ List.mem_map_of_mem _ ha)
      rw [List.find?_cons_of_neg _ (by simp [hne])]
      exact ih hnd.2 ha

/-- A successful lookup in a prefix survives appending a suffix. -/
theorem find_append_left {α : Type} (l1 l2 : List α) (p : α → Bool)
    (a : α) (h : l1.find? p = some a) :
    (l1 ++ l2).find? p = some a := by
  induction l1 with
  | nil => simp [List.find?] at h
  | cons b l1 ih =>
    cases hb : p b with
    | true =>
      rw [List.find?_cons_of_pos _ hb] at h
      rw [List.cons_append, List.find?_cons_of_pos _ hb]
      exact h
    | false =>
      rw [List.find?_cons_of_neg _ (by simp [hb])] at h
      rw [List.cons_append, List.find?_cons_of_neg _ (by simp [hb])]
      exact ih h

/-- C8: for every harvest run over a loaded collection with
pairwise-distinct urls, the returned collection is exactly the existing
articles in their original order followed by the newly harvested
articles (which never reuse an existing url), and looking any existing
article up by its url still finds the original record — its title and
text remain from the first harvest even if the remote record for its
url changed. -/
theorem claim_C8 (cat now : String) (remote : Nat → FetchResult)
    (existing : List Article)
    (hnd : (existing.map (·.url)).Nodup) :
    (∃ newArts,
      (fetch_category_posts cat now remote existing).1 =
          existing ++ newArts ∧
        ∀ a ∈ newArts, a.url ∉ existing.map (·.url)) ∧
    (∀ a ∈ existing,
      (fetch_category_posts cat now remote existing).1.find?
          (fun b => b.url == a.url) = some a) := by
  obtain ⟨hFresh, _⟩ := hp_fresh cat now remote
    MAX_PAGES_PER_CATEGORY 1 (existing.map (·.url))
  constructor
  · exact ⟨(harvestPages cat now remote MAX_PAGES_PER_CATEGORY 1
      (existing.map (·.url))).1, by simp only [fetch_category_posts], hFresh⟩
  · intro a ha
    simp only [fetch_category_posts]
    exact find_append_left existing _ _ a (find_url_nodup existing hnd a ha)

/-- Witness for C8: one stored article with url `"u"`; the remote offers
a changed record for the same url plus one fresh post — the lookup for
`"u"` still yields the original article. -/
theorem claim_C8_witness :
    (∃ newArts,
      (fetch_category_posts "c" "s2" (fun k =>
          if k = 1 then .posts [⟨some "u", some "CHANGED", some ["new"],
                                  none⟩,
                                ⟨some "v", some "t3", some ["z"], none⟩]
          else FetchResult.pageEnd)
        [⟨some "u", "t", "x", ["c"], none, "s"⟩]).1 =
          [⟨some "u", "t", "x", ["c"], none, "s"⟩] ++ newArts ∧
        ∀ a ∈ newArts, a.url ∉
          ([⟨some "u", "t", "x", ["c"], none, "s"⟩] : List Article).map
            (·.url)) ∧
    (∀ a ∈ ([⟨some "u", "t", "x", ["c"], none, "s"⟩] : List Article),
      (fetch_category_posts "c" "s2" (fun k =>
          if k = 1 then .posts [⟨some "u", some "CHANGED", some ["new"],
                                  none⟩,
                                ⟨some "v", some "t3", some ["z"], none⟩]
          else FetchResult.pageEnd)
        [⟨some "u", "t", "x", ["c"], none, "s"⟩]).1.find?
          (fun b => b.url == a.url) = some a) :=
  claim_C8 "c" "s2" _ _ (by decide)

/-- A non-empty page none of whose posts is missing `title`/`content`
lets the loop continue to the next page. -/
theorem hp_step (cat now : String) (remote : Nat → FetchResult)
    (fuel page : Nat) (urls : List (Option String)) (ps : List RawPost)
    (hrem : remote page = .posts ps) (hne : ps ≠ [])
    (hok : ∀ p ∈ ps, p.title ≠ none ∧ p.content ≠ none) :
    harvestPages cat now remote (fuel + 1) page urls =
      ((processPage cat now urls ps).1 ++
         (harvestPages cat now remote fuel (page + 1)
           (processPage cat now urls ps).2.1).1,
       (harvestPages cat now remote fuel (page + 1)
         (processPage cat now urls ps).2.1).2.1,
       (harvestPages cat now remote fuel (page + 1)
         (processPage cat now urls ps).2.1).2.2 + 1) := by
  cases ps with
  | nil => exact absurd rfl hne
  | cons p ps' =>
    have herr := pp_noerror cat now (p :: ps') hok urls
    have hpp : processPage cat now urls (p :: ps') =
        ((processPage cat now urls (p :: ps')).1,
         (processPage cat now urls (p :: ps')).2.1, false) := by
      rw [← herr]
    exact hp_posts_ok cat now remote fuel page urls p ps' _ _ hrem hpp

/-- C6: for every fetch sequence in which pages 1–3 return non-empty,
error-free post lists and page 4 returns an empty list, harvest performs
exactly 4 fetch calls, and every post of pages 1–3 has its link among
the urls of the returned collection. -/
theorem claim_C6 (cat now : String) (remote : Nat → FetchResult)
    (existing : List Article) (ps1 ps2 ps3 : List RawPost)
    (h1 : remote 1 = .posts ps1) (h2 : remote 2 = .posts ps2)
    (h3 : remote 3 = .posts ps3) (h4 : remote 4 = .posts [])
    (hne1 : ps1 ≠ []) (hne2 : ps2 ≠ []) (hne3 : ps3 ≠ [])
    (hok : ∀ p ∈ ps1 ++ ps2 ++ ps3, p.title ≠ none ∧ p.content ≠ none) :
    (harvestPages cat now remote MAX_PAGES_PER_CATEGORY 1
        (existing.map (·.url))).2.2 = 4 ∧
    ∀ p ∈ ps1 ++ ps2 ++ ps3,
      p.link ∈ (fetch_category_posts cat now remote existing).1.map
        (·.url) := by
  have hok1 : ∀ p ∈ ps1, p.title ≠ none ∧ p.content ≠ none :=
    fun p hp => hok p (by simp [hp])
  have hok2 : ∀ p ∈ ps2, p.title ≠ none ∧ p.content ≠ none :=
    fun p hp => hok p (by simp [hp])
  have hok3 : ∀ p ∈ ps3, p.title ≠ none ∧ p.content ≠ none :=
    fun p hp => hok p (by simp [hp])
  set u1 := existing.map (·.url) with hu1
  set u2 := (processPage cat now u1 ps1).2.1 with hu2
  set u3 := (processPage cat now u2 ps2).2.1 with hu3
  set u4 := (processPage cat now u3 ps3).2.1 with hu4
  have e1 := hp_step cat now remote 9998 1 u1 ps1 h1 hne1 hok1
  have e2 := hp_step cat now remote 9997 2 u2 ps2 h2 hne2 hok2
  have e3 := hp_step cat now remote 9996 3 u3 ps3 h3 hne3 hok3
  have e4 := hp_posts_nil cat now remote 9995 4 u4 h4
  have hM : MAX_PAGES_PER_CATEGORY = 9998 + 1 := rfl
  have h12 : (9998 : Nat) = 9997 + 1 := rfl
  have h23 : (9997 : Nat) = 9996 + 1 := rfl
  have h34 : (9996 : Nat) = 9995 + 1 := rfl
  have ecount : (harvestPages cat now remote MAX_PAGES_PER_CATEGORY 1
      u1).2.2 = 4 := by
    rw [hM, e1]
    simp only
    rw [h12, e2]
    simp only
    rw [h23, e3]
    simp only
    rw [h34, e4]
  have eurls : (harvestPages cat now remote MAX_PAGES_PER_CATEGORY 1
      u1).2.1 = u4 := by
    rw [hM, e1]
    simp only
    rw [h12, e2]
    simp only
    rw [h23, e3]
    simp only
    rw [h34, e4]
  refine ⟨ecount, ?_⟩
  have herr1 := pp_noerror cat now ps1 hok1 u1
  have herr2 := pp_noerror cat now ps2 hok2 u2
  have herr3 := pp_noerror cat now ps3 hok3 u3
  have mono2 : ∀ x, x ∈ u2 → x ∈ u3 :=
    fun x hx => (pp_urls_iff cat now ps2 u2 x).mpr (Or.inl hx)
  have mono3 : ∀ x, x ∈ u3 → x ∈ u4 :=
    fun x hx => (pp_urls_iff cat now ps3 u3 x).mpr (Or.inl hx)
  have hin4 : ∀ p ∈ ps1 ++ ps2 ++ ps3, p.link ∈ u4 := by
    intro p hp
    rcases List.mem_append.mp hp with hp | hp
    · rcases List.mem_append.mp hp with hp | hp
      · exact mono3 _ (mono2 _ (pp_link_mem cat now ps1 u1 herr1 p hp))
      · exact mono3 _ (pp_link_mem cat now ps2 u2 herr2 p hp)
    · exact pp_link_mem cat now ps3 u3 herr3 p hp
  intro p hp
  have hfin : p.link ∈ (harvestPages cat now remote
      MAX_PAGES_PER_CATEGORY 1 u1).2.1 := by
    rw [eurls]
    exact hin4 p hp
  have := (hp_urls_iff cat now remote MAX_PAGES_PER_CATEGORY 1
    u1 p.link).mp hfin
  simp only [fetch_category_posts, List.map_append, List.mem_append]
  exact this

/-- Concrete three-pages-then-empty remote for the C6 witness. -/
def wRemoteC6 : Nat → FetchResult := fun k =>
  if k = 1 then .posts [⟨some "a1", some "T1", some ["x"], none⟩]
  else if k = 2 then .posts [⟨some "a2", some "T2", some ["y"], none⟩]
  else if k = 3 then .posts [⟨some "a3", some "T3", some ["z"], none⟩]
  else .posts []

/-- Witness for C6 at a concrete fetch sequence with one post per page. -/
theorem claim_C6_witness :
    (harvestPages "c" "t" wRemoteC6 MAX_PAGES_PER_CATEGORY 1
        (([] : List Article).map (·.url))).2.2 = 4 ∧
    ∀ p ∈ ([⟨some "a1", some "T1", some ["x"], none⟩] : List RawPost) ++
        [⟨some "a2", some "T2", some ["y"], none⟩] ++
        [⟨some "a3", some "T3", some ["z"], none⟩],
      p.link ∈ (fetch_category_posts "c" "t" wRemoteC6 []).1.map (·.url) :=
  claim_C6 "c" "t" wRemoteC6 [] _ _ _ (by decide) (by decide) (by decide)
    (by decide) (by decide) (by decide) (by decide) (by decide)

/-- A transient error at page `k0` produces exactly the run that a clean
end of pagination at `k0` would: no article built on an earlier page is
lost. -/
theorem hp_error_cut (cat now : String) (remote remote' : Nat → FetchResult)
    (k0 : Nat) (hk : remote k0 = .fetchError)
    (hk' : remote' k0 = .posts [])
    (hagree : ∀ k, k ≠ k0 → remote k = remote' k) :
    ∀ fuel page urls,
      harvestPages cat now remote fuel page urls =
        harvestPages cat now remote' fuel page urls := by
  intro fuel
  induction fuel with
  | zero => intro page urls; rfl
  | succ fuel ih =>
    intro page urls
    by_cases hpk : page = k0
    · subst hpk
      rw [hp_fetchError cat now remote fuel page urls hk,
        hp_posts_nil cat now remote' fuel page urls hk']
    · have he := hagree page hpk
      cases hrem : remote page with
      | pageEnd =>
        rw [hp_pageEnd cat now remote fuel page urls hrem,
          hp_pageEnd cat now remote' fuel page urls (he ▸ hrem)]
      | fetchError =>
        rw [hp_fetchError cat now remote fuel page urls hrem,
          hp_fetchError cat now remote' fuel page urls (he ▸ hrem)]
      | posts ps =>
        cases ps with
        | nil =>
          rw [hp_posts_nil cat now remote fuel page urls hrem,
            hp_posts_nil cat now remote' fuel page urls (he ▸ hrem)]
        | cons p ps =>
          rcases hpp : processPage cat now urls (p :: ps) with
            ⟨arts, urls2, b⟩
          cases b with
          | true =>
            rw [hp_posts_err cat now remote fuel page urls p ps arts urls2
              hrem hpp,
              hp_posts_err cat now remote' fuel page urls p ps arts urls2
                (he ▸ hrem) hpp]
          | false =>
            rw [hp_posts_ok cat now remote fuel page urls p ps arts urls2
              hrem hpp,
              hp_posts_ok cat now remote' fuel page urls p ps arts urls2
                (he ▸ hrem) hpp, ih (page + 1) urls2]

/-- The sequence of saved files of a run is each catalog entry's own
harvest, independent of what happened to the other categories. -/
theorem mainRun_saved (catalog : List (String × Nat))
    (remotes : String → Nat → FetchResult)
    (stores : String → List Article) (now : String) :
    (mainRun catalog remotes stores now).1 =
      catalog.map (fun ci =>
        (ci.1, (fetch_category_posts ci.1 now (remotes ci.1)
          (stores ci.1)).1)) := by
  suffices h : ∀ acc : List (String × List Article) × Nat × Nat,
      (catalog.foldl (mainStep remotes stores now) acc).1 =
        acc.1 ++ catalog.map (fun ci =>
          (ci.1, (fetch_category_posts ci.1 now (remotes ci.1)
            (stores ci.1)).1)) by
    simpa using h ([], 0, 0)
  induction catalog with
  | nil => intro acc; simp
  | cons ci catalog ih =>
    intro acc
    rw [List.foldl_cons, ih]
    simp [mainStep, List.append_assoc]

theorem hp_posts_err2 (cat now : String) (remote : Nat → FetchResult)
    (fuel page : Nat) (urls : List (Option String)) (qs : List RawPost)
    (arts : List Article) (urls2 : List (Option String))
    (hrem : remote page = .posts qs) (hne : qs ≠ [])
    (hpp : processPage cat now urls qs = (arts, urls2, true)) :
    harvestPages cat now remote (fuel + 1) page urls = (arts, urls2, 1) := by
  cases qs with
  | nil => exact absurd rfl hne
  | cons p ps =>
    exact hp_posts_err cat now remote fuel page urls p ps arts urls2
      hrem hpp

/-- C7: a transient fetch or record-processing failure on some page of
a category stops only that category's remaining pagination.
Part 1: a record-processing failure mid-page keeps every article built
from the posts before the failure point.  Part 2: when such a page is
fetched, the loop stops there and its new articles are exactly those
built before the failure point — they are kept in the returned
collection.  Part 3: a transient fetch error at page `k0` yields exactly
the run of a clean end of pagination at `k0`, so all articles from
earlier pages are kept.  Part 4: in a full `main()` run every catalog
entry is harvested and saved with its own remote view, so one category's
error cannot affect the others. -/
theorem claim_C7 :
    (∀ (cat now : String) (urls : List (Option String))
       (good : List RawPost) (bad : RawPost) (rest : List RawPost),
      (bad.title = none ∨ bad.content = none) →
      (∀ p ∈ good, p.title ≠ none ∧ p.content ≠ none) →
      bad.link ∉ urls → bad.link ∉ good.map (·.link) →
      processPage cat now urls (good ++ bad :: rest) =
        ((processPage cat now urls good).1,
         (processPage cat now urls good).2.1, true)) ∧
    (∀ (cat now : String) (remote : Nat → FetchResult) (fuel page : Nat)
       (urls : List (Option String)) (good : List RawPost)
       (bad : RawPost) (rest : List RawPost),
      remote page = FetchResult.posts (good ++ bad :: rest) →
      (bad.title = none ∨ bad.content = none) →
      (∀ p ∈ good, p.title ≠ none ∧ p.content ≠ none) →
      bad.link ∉ urls → bad.link ∉ good.map (·.link) →
      harvestPages cat now remote (fuel + 1) page urls =
        ((processPage cat now urls good).1,
         (processPage cat now urls good).2.1, 1)) ∧
    (∀ (cat now : String) (remote remote' : Nat → FetchResult)
       (k0 : Nat) (existing : List Article),
      remote k0 = FetchResult.fetchError →
      remote' k0 = FetchResult.posts [] →
      (∀ k, k ≠ k0 → remote k = remote' k) →
      fetch_category_posts cat now remote existing =
        fetch_category_posts cat now remote' existing) ∧
    (∀ (catalog : List (String × Nat))
       (remotes : String → Nat → FetchResult)
       (stores : String → List Article) (now : String),
      (mainRun catalog remotes stores now).1 =
        catalog.map (fun ci =>
          (ci.1, (fetch_category_posts ci.1 now (remotes ci.1)
            (stores ci.1)).1))) := by
  refine ⟨?_, ?_, ?_, mainRun_saved⟩
  · intro cat now urls good bad rest hbad hok hnot hfresh
    exact pp_partial_keep cat now good bad rest hbad urls hok hnot hfresh
  · intro cat now remote fuel page urls good bad rest hrem hbad hok hnot
      hfresh
    exact hp_posts_err2 cat now remote fuel page urls _ _ _ hrem
      (by simp)
      (pp_partial_keep cat now good bad rest hbad urls hok hnot hfresh)
  · intro cat now remote remote' k0 existing hk hk' hagree
    simp only [fetch_category_posts]
    rw [hp_error_cut cat now remote remote' k0 hk hk' hagree
      MAX_PAGES_PER_CATEGORY 1]

/-- Witness for C7 at a concrete page: a good post, then a post whose
`title.rendered` is missing, then a further post — the good post's
article is kept and processing stops. -/
theorem claim_C7_witness :
    processPage "c" "t" []
        [⟨some "g", some "TG", some ["x"], none⟩,
         ⟨some "b", none, some ["y"], none⟩,
         ⟨some "r", some "TR", some ["z"], none⟩] =
      ((processPage "c" "t" [] [⟨some "g", some "TG", some ["x"], none⟩]).1,
       (processPage "c" "t" []
         [⟨some "g", some "TG", some ["x"], none⟩]).2.1, true) :=
  claim_C7.1 "c" "t" [] [⟨some "g", some "TG", some ["x"], none⟩]
    ⟨some "b", none, some ["y"], none⟩
    [⟨some "r", some "TR", some ["z"], none⟩]
    (by decide) (by decide) (by decide) (by decide)

/-- C9: `load_data` returns the empty collection when the file is
absent, when reading raises, and when the content is invalid JSON; a
readable valid file returns its decoded collection.  `load_data` is a
total function of the observed file state — the bare `except` means no
error escapes. -/
theorem claim_C9 :
    load_data FileRead.absent = [] ∧
    load_data FileRead.readError = [] ∧
    load_data FileRead.invalidJson = [] ∧
    ∀ d, load_data (FileRead.valid d) = d :=
  ⟨rfl, rfl, rfl, fun _ => rfl⟩

/-- Writing characters one by one appends them to the current content. -/
theorem runOps_writes (l : List Char) :
    ∀ c : String, runOps c (l.map FsOp.write) = String.mk (c.data ++ l) := by
  induction l with
  | nil =>
    intro c
    cases c with
    | mk d => simp [runOps]
  | cons ch l ih =>
    intro c
    have hstep : runOps c ((ch :: l).map FsOp.write) =
        runOps (c.push ch) (l.map FsOp.write) := rfl
    rw [hstep, ih (c.push ch)]
    cases c with
    | mk d => simp [String.push]

/-- C3, counterexample to the claim as stated: a save of `"[2]"` over
prior content `"[1]"` that fails right after the truncating open leaves
the file empty — neither the full new representation nor the prior
content, so a subsequent load observes a truncated file. -/
theorem claim_C3_counterexample :
    ¬ (runOps "[1]" ((save_data_ops "[2]").take 1) = "[2]" ∨
       runOps "[1]" ((save_data_ops "[2]").take 1) = "[1]") := by
  decide

/-- C3, amended: `save_data` opens the file in mode `'w'`, which
truncates it before writing, so a save that fails after `k ≥ 1`
operations leaves the first `k - 1` characters of the new serialized
representation (not the prior content); the prior content survives only
if nothing at all executed, and a completed save leaves the full new
representation. -/
theorem claim_C3 (prior s : String) (k : Nat) :
    (runOps prior ((save_data_ops s).take 0) = prior) ∧
    (1 ≤ k → runOps prior ((save_data_ops s).take k) =
      String.mk (s.data.take (k - 1))) ∧
    runOps prior (save_data_ops s) = s := by
  refine ⟨rfl, ?_, ?_⟩
  · intro hk
    obtain ⟨j, rfl⟩ : ∃ j, k = j + 1 := ⟨k - 1, by omega⟩
    simp only [save_data_ops, List.take_succ_cons, Nat.add_sub_cancel]
    have htr : runOps prior (FsOp.truncate ::
        (s.data.map FsOp.write).take j) =
        runOps "" ((s.data.map FsOp.write).take j) := rfl
    rw [htr, ← List.map_take, runOps_writes]
    rfl
  · have htr : runOps prior (save_data_ops s) =
        runOps "" (s.data.map FsOp.write) := rfl
    rw [htr, runOps_writes]
    cases s with
    | mk d => simp

/-- Witness for C3: prior `"[1]"`, new content `"[2]"`, failure after
3 operations leaves the two-character prefix of the new content. -/
theorem claim_C3_witness :
    (runOps "[1]" ((save_data_ops "[2]").take 0) = "[1]") ∧
    (runOps "[1]" ((save_data_ops "[2]").take 3) =
      String.mk ("[2]".data.take 2)) ∧
    runOps "[1]" (save_data_ops "[2]") = "[2]" := by
  obtain ⟨h0, h1, h2⟩ := claim_C3 "[1]" "[2]" 3
  exact ⟨h0, h1 (by decide), h2⟩

/-- A 150-character paragraph text containing the boilerplate phrase. -/
def longParaC5 : String :=
  "Прочитајте повеќе" ++ String.mk (List.replicate 133 'а')

/-- C5, counterexample to the claim as stated: the empty extracted block
is dropped from the normalized text although it is neither shorter than
100 characters and boilerplate-matching in the claim's sense — its drop
condition (`< 100` AND matches the phrase set) is false, yet it is
excluded. -/
theorem claim_C5_counterexample :
    ("" ∈ ([""] : List String)) ∧ "" ∉ clean_html_blocks [""] ∧
      ¬("".length < 100 ∧ boilerplateHit "" = true) := by
  decide

/-- C5, amended: an extracted block is dropped iff its text is empty or
it is shorter than 100 characters and matches the boilerplate phrase
set; in particular the block text `Прочитајте повеќе` (17 characters) is
excluded from the normalized text, a 150-character paragraph containing
the same phrase is included, and short non-empty blocks matching no
phrase are kept. -/
theorem claim_C5 :
    (∀ (blocks : List String) (t : String), t ∈ blocks →
      (t ∈ clean_html_blocks blocks ↔
        (¬(t.length < 100 ∧ boilerplateHit t = true) ∧ t ≠ ""))) ∧
    ("Прочитајте повеќе" ∉ clean_html_blocks ["Прочитајте повеќе"] ∧
      clean_html_content ["Прочитајте повеќе"] = "") ∧
    (longParaC5.length = 150 ∧ boilerplateHit longParaC5 = true ∧
      longParaC5 ∈ clean_html_blocks [longParaC5] ∧
      clean_html_content [longParaC5] = longParaC5) ∧
    ("Кратка вистинска реченица." ∈
      clean_html_blocks ["Кратка вистинска реченица."]) := by
  refine ⟨?_, by decide, ⟨by decide, by decide, by decide, by decide⟩,
    by decide⟩
  intro blocks t ht
  rw [clean_html_blocks, List.mem_filter]
  simp only [ht, true_and]
  unfold keepBlock
  by_cases hc : t.length < 100 ∧ boilerplateHit t = true
  · rw [if_pos (by simp [hc.1, hc.2])]
    simp [hc]
  · rw [if_neg (by
      simp only [Bool.and_eq_true, decide_eq_true_eq]
      exact fun h => hc ⟨h.1, h.2⟩)]
    simp only [bne_iff_ne, ne_eq]
    tauto

/-- Witness for C5 at a short genuine block: it is kept and the
equivalence holds. -/
theorem claim_C5_witness :
    ("Здраво" ∈ (["Здраво"] : List String)) ∧
    ("Здраво" ∈ clean_html_blocks ["Здраво"] ↔
      (¬("Здраво".length < 100 ∧ boilerplateHit "Здраво" = true) ∧
        "Здраво" ≠ "")) :=
  ⟨by decide, claim_C5.1 ["Здраво"] "Здраво" (by decide)⟩

theorem mas_none (alls : List Article) (seen : List String) (nc dc : Nat)
    (a : Article) (htu : truthyUrl a.url = none) :
    mergeArticleStep (alls, seen, nc, dc) a = (alls, seen, nc, dc) := by
  simp [mergeArticleStep, htu]

theorem mas_dup (alls : List Article) (seen : List String) (nc dc : Nat)
    (a : Article) (u : String) (htu : truthyUrl a.url = some u)
    (hmem : u ∈ seen) :
    mergeArticleStep (alls, seen, nc, dc) a = (alls, seen, nc, dc + 1) := by
  simp [mergeArticleStep, htu, hmem]

theorem mas_new (alls : List Article) (seen : List String) (nc dc : Nat)
    (a : Article) (u : String) (htu : truthyUrl a.url = some u)
    (hmem : u ∉ seen) :
    mergeArticleStep (alls, seen, nc, dc) a =
      (alls ++ [a], u :: seen, nc + 1, dc) := by
  simp [mergeArticleStep, htu, hmem]

/-- The article fold's result is independent of the running `new_count`
except for shifting it. -/
theorem mf_nc_shift (l : List Article) :
    ∀ alls seen nc dc,
      l.foldl mergeArticleStep (alls, seen, nc, dc) =
        ((l.foldl mergeArticleStep (alls, seen, 0, dc)).1,
         (l.foldl mergeArticleStep (alls, seen, 0, dc)).2.1,
         nc + (l.foldl mergeArticleStep (alls, seen, 0, dc)).2.2.1,
         (l.foldl mergeArticleStep (alls, seen, 0, dc)).2.2.2) := by
  induction l with
  | nil => intro alls seen nc dc; simp
  | cons a l ih =>
    intro alls seen nc dc
    rw [List.foldl_cons, List.foldl_cons]
    cases htu : truthyUrl a.url with
    | none =>
      rw [mas_none alls seen nc dc a htu, mas_none alls seen 0 dc a htu]
      exact ih alls seen nc dc
    | some u =>
      by_cases hmem : u ∈ seen
      · rw [mas_dup alls seen nc dc a u htu hmem,
          mas_dup alls seen 0 dc a u htu hmem]
        exact ih alls seen nc (dc + 1)
      · rw [mas_new alls seen nc dc a u htu hmem,
          mas_new alls seen 0 dc a u htu hmem]
        rw [ih (alls ++ [a]) (u :: seen) (nc + 1) dc,
          ih (alls ++ [a]) (u :: seen) (0 + 1) dc]
        simp [Nat.add_assoc]

/-- Seen-url characterization: after the fold, the seen set is the
initial one plus all truthy urls of the processed articles. -/
theorem mf_seen_iff (l : List Article) :
    ∀ alls seen nc dc x,
      x ∈ (l.foldl mergeArticleStep (alls, seen, nc, dc)).2.1 ↔
        x ∈ seen ∨ x ∈ l.filterMap (fun a => truthyUrl a.url) := by
  induction l with
  | nil => intro alls seen nc dc x; simp
  | cons a l ih =>
    intro alls seen nc dc x
    rw [List.foldl_cons]
    cases htu : truthyUrl a.url with
    | none =>
      rw [mas_none alls seen nc dc a htu, ih]
      simp only [List.filterMap_cons, htu]
    | some u =>
      by_cases hmem : u ∈ seen
      · rw [mas_dup alls seen nc dc a u htu hmem, ih]
        simp only [List.filterMap_cons, htu, List.mem_cons]
        constructor
        · rintro (h | h)
          · exact Or.inl h
          · exact Or.inr (Or.inr h)
        · rintro (h | rfl | h)
          · exact Or.inl h
          · exact Or.inl hmem
          · exact Or.inr h
      · rw [mas_new alls seen nc dc a u htu hmem, ih]
        simp only [List.filterMap_cons, htu, List.mem_cons]
        tauto

/-- Length / unique-count accounting: the number of appended articles
and the growth of `new_count` both equal the number of distinct truthy
urls not yet seen. -/
theorem mf_len_nc (l : List Article) :
    ∀ alls seen nc dc,
      (l.foldl mergeArticleStep (alls, seen, nc, dc)).1.length =
        alls.length +
          ((l.filterMap (fun a => truthyUrl a.url)).toFinset \
            seen.toFinset).card ∧
      (l.foldl mergeArticleStep (alls, seen, nc, dc)).2.2.1 =
        nc + ((l.filterMap (fun a => truthyUrl a.url)).toFinset \
          seen.toFinset).card := by
  induction l with
  | nil => intro alls seen nc dc; simp
  | cons a l ih =>
    intro alls seen nc dc
    rw [List.foldl_cons]
    cases htu : truthyUrl a.url with
    | none =>
      rw [mas_none alls seen nc dc a htu]
      simp only [List.filterMap_cons, htu]
      exact ih alls seen nc dc
    | some u =>
      by_cases hmem : u ∈ seen
      · rw [mas_dup alls seen nc dc a u htu hmem]
        have hins : (insert u (l.filterMap
            (fun a => truthyUrl a.url)).toFinset) \ seen.toFinset =
            (l.filterMap (fun a => truthyUrl a.url)).toFinset \
              seen.toFinset := by
          rw [Finset.insert_sdiff_of_mem _ (by simpa using hmem)]
        simp only [List.filterMap_cons, htu, List.toFinset_cons, hins]
        exact ih alls seen nc (dc + 1)
      · rw [mas_new alls seen nc dc a u htu hmem]
        simp only [List.filterMap_cons, htu]
        obtain ⟨ih1, ih2⟩ := ih (alls ++ [a]) (u :: seen) (nc + 1) dc
        have hcard : ((u :: l.filterMap
              (fun a => truthyUrl a.url)).toFinset \ seen.toFinset).card =
            ((l.filterMap (fun a => truthyUrl a.url)).toFinset \
              (u :: seen).toFinset).card + 1 := by
          rw [List.toFinset_cons, List.toFinset_cons]
          rw [Finset.insert_sdiff_of_not_mem _ (by simpa using hmem)]
          rw [Finset.sdiff_insert]
          set S := (l.filterMap (fun a => truthyUrl a.url)).toFinset \
            seen.toFinset with hS
          by_cases hu : u ∈ S
          · rw [Finset.insert_eq_self.mpr hu]
            exact (Finset.card_erase_add_one hu).symm
          · rw [Finset.erase_eq_of_not_mem hu,
              Finset.card_insert_of_not_mem hu]
        constructor
        · rw [ih1, hcard]
          simp only [List.length_append, List.length_singleton]
          omega
        · rw [ih2, hcard]
          omega

theorem truthyUrl_some_iff (v : Option String) (u : String) :
    truthyUrl v = some u ↔ v = some u ∧ u ≠ "" := by
  cases v with
  | none => simp [truthyUrl]
  | some s =>
    by_cases hs : s = ""
    · subst hs
      simp only [truthyUrl, if_pos rfl]
      constructor
      · intro h; cases h
      · rintro ⟨h, hne⟩
        cases h
        exact absurd rfl hne
    · simp only [truthyUrl, if_neg hs, Option.some_inj]
      constructor
      · rintro rfl
        exact ⟨rfl, hs⟩
      · rintro ⟨h, _⟩
        cases h
        rfl

/-- A post whose url would be a fresh truthy value `u` cannot hide an
earlier first occurrence: its url test against `some u` is false unless
it equals it. -/
theorem url_beq_false (x : Article) (u : String) (hne : u ≠ "")
    (hx : truthyUrl x.url ≠ some u) : (x.url == some u) = false := by
  rw [beq_eq_false_iff_ne]
  intro h
  exact hx ((truthyUrl_some_iff x.url u).mpr ⟨h, hne⟩)

/-- First-seen: every article the fold appends is the first article of
the processed list carrying its (truthy, previously unseen) url. -/
theorem mf_first_seen (l : List Article) :
    ∀ alls seen nc dc a,
      a ∈ (l.foldl mergeArticleStep (alls, seen, nc, dc)).1 →
      a ∈ alls ∨ ∃ u, a.url = some u ∧ u ≠ "" ∧ u ∉ seen ∧
        l.find? (fun b => b.url == some u) = some a := by
  induction l with
  | nil =>
    intro alls seen nc dc a ha
    simp only [List.foldl_nil] at ha
    exact Or.inl ha
  | cons x l ih =>
    intro alls seen nc dc a ha
    rw [List.foldl_cons] at ha
    cases htu : truthyUrl x.url with
    | none =>
      rw [mas_none alls seen nc dc x htu] at ha
      rcases ih alls seen nc dc a ha with h | ⟨u, hu, hne, hns, hfind⟩
      · exact Or.inl h
      · refine Or.inr ⟨u, hu, hne, hns, ?_⟩
        rw [List.find?_cons_of_neg _ (by
          simp [url_beq_false x u hne (by rw [htu]; simp)])]
        exact hfind
    | some u0 =>
      by_cases hmem : u0 ∈ seen
      · rw [mas_dup alls seen nc dc x u0 htu hmem] at ha
        rcases ih alls seen nc (dc + 1) a ha with h | ⟨u, hu, hne, hns, hfind⟩
        · exact Or.inl h
        · refine Or.inr ⟨u, hu, hne, hns, ?_⟩
          rw [List.find?_cons_of_neg _ (by
            simp [url_beq_false x u hne (by
              rw [htu]
              intro h
              cases h
              exact hns hmem)])]
          exact hfind
      · rw [mas_new alls seen nc dc x u0 htu hmem] at ha
        rcases ih (alls ++ [x]) (u0 :: seen) (nc + 1) dc a ha with
          h | ⟨u, hu, hne, hns, hfind⟩
        · rcases List.mem_append.mp h with h | h
          · exact Or.inl h
          · obtain rfl : a = x := by simpa using h
            obtain ⟨hurl, hne0⟩ := (truthyUrl_some_iff a.url u0).mp htu
            refine Or.inr ⟨u0, hurl, hne0, hmem, ?_⟩
            rw [List.find?_cons_of_pos _ (by simp [hurl])]
        · refine Or.inr ⟨u, hu, hne,
            fun hs => hns (List.mem_cons_of_mem _ hs), ?_⟩
          rw [List.find?_cons_of_neg _ (by
            simp [url_beq_false x u hne (by
              rw [htu]
              intro h
              cases h
              exact hns (List.mem_cons_self _ _))])]
          exact hfind

/-- Per-source accounting: unique count plus duplicate count plus the
number of falsy-url articles equals the number of processed articles. -/
theorem mf_account (l : List Article) :
    ∀ alls seen nc dc,
      (l.foldl mergeArticleStep (alls, seen, nc, dc)).2.2.1 +
        (l.foldl mergeArticleStep (alls, seen, nc, dc)).2.2.2 +
        l.countP (fun a => truthyUrl a.url == none) =
      nc + dc + l.length := by
  induction l with
  | nil => intro alls seen nc dc; simp
  | cons x l ih =>
    intro alls seen nc dc
    rw [List.foldl_cons, List.countP_cons]
    cases htu : truthyUrl x.url with
    | none =>
      rw [mas_none alls seen nc dc x htu]
      have := ih alls seen nc dc
      simp [htu]
      omega
    | some u =>
      by_cases hmem : u ∈ seen
      · rw [mas_dup alls seen nc dc x u htu hmem]
        have := ih alls seen nc (dc + 1)
        simp [htu]
        omega
      · rw [mas_new alls seen nc dc x u htu hmem]
        have := ih (alls ++ [x]) (u :: seen) (nc + 1) dc
        simp [htu]
        omega

/-- The output articles, seen set, and duplicate count of the per-file
fold are those of the flat article fold over the concatenated inputs. -/
theorem files_flatten (files : List (String × List Article)) :
    ∀ alls seen counts dc,
      (files.foldl mergeFileStep (alls, seen, counts, dc)).1 =
        ((files.flatMap Prod.snd).foldl mergeArticleStep
          (alls, seen, 0, dc)).1 ∧
      (files.foldl mergeFileStep (alls, seen, counts, dc)).2.1 =
        ((files.flatMap Prod.snd).foldl mergeArticleStep
          (alls, seen, 0, dc)).2.1 ∧
      (files.foldl mergeFileStep (alls, seen, counts, dc)).2.2.2 =
        ((files.flatMap Prod.snd).foldl mergeArticleStep
          (alls, seen, 0, dc)).2.2.2 := by
  induction files with
  | nil => intro alls seen counts dc; exact ⟨rfl, rfl, rfl⟩
  | cons f files ih =>
    intro alls seen counts dc
    rw [List.foldl_cons, List.flatMap_cons, List.foldl_append]
    have hstep : mergeFileStep (alls, seen, counts, dc) f =
        ((f.2.foldl mergeArticleStep (alls, seen, 0, dc)).1,
         (f.2.foldl mergeArticleStep (alls, seen, 0, dc)).2.1,
         counts ++ [(f.1, f.2.length,
           (f.2.foldl mergeArticleStep (alls, seen, 0, dc)).2.2.1)],
         (f.2.foldl mergeArticleStep (alls, seen, 0, dc)).2.2.2) := rfl
    rw [hstep]
    have heta : f.2.foldl mergeArticleStep (alls, seen, 0, dc) =
        ((f.2.foldl mergeArticleStep (alls, seen, 0, dc)).1,
         (f.2.foldl mergeArticleStep (alls, seen, 0, dc)).2.1,
         (f.2.foldl mergeArticleStep (alls, seen, 0, dc)).2.2.1,
         (f.2.foldl mergeArticleStep (alls, seen, 0, dc)).2.2.2) := rfl
    rw [heta, mf_nc_shift (files.flatMap Prod.snd)
      (f.2.foldl mergeArticleStep (alls, seen, 0, dc)).1
      (f.2.foldl mergeArticleStep (alls, seen, 0, dc)).2.1
      (f.2.foldl mergeArticleStep (alls, seen, 0, dc)).2.2.1
      (f.2.foldl mergeArticleStep (alls, seen, 0, dc)).2.2.2]
    exact ih _ _ _ _

/-- The per-source unique counts recorded by the per-file fold sum to
the total growth of the output collection. -/
theorem files_counts_sum (files : List (String × List Article)) :
    ∀ alls seen counts dc,
      (((files.foldl mergeFileStep (alls, seen, counts, dc)).2.2.1).map
          (fun c => c.2.2)).sum + alls.length =
        (counts.map (fun c => c.2.2)).sum +
          (files.foldl mergeFileStep (alls, seen, counts, dc)).1.length := by
  induction files with
  | nil => intro alls seen counts dc; simp [Nat.add_comm]
  | cons f files ih =>
    intro alls seen counts dc
    rw [List.foldl_cons]
    have hstep : mergeFileStep (alls, seen, counts, dc) f =
        ((f.2.foldl mergeArticleStep (alls, seen, 0, dc)).1,
         (f.2.foldl mergeArticleStep (alls, seen, 0, dc)).2.1,
         counts ++ [(f.1, f.2.length,
           (f.2.foldl mergeArticleStep (alls, seen, 0, dc)).2.2.1)],
         (f.2.foldl mergeArticleStep (alls, seen, 0, dc)).2.2.2) := rfl
    rw [hstep]
    obtain ⟨hlen, hnc⟩ := mf_len_nc f.2 alls seen 0 dc
    have e1 : (f.2.foldl mergeArticleStep (alls, seen, 0, dc)).1.length =
        alls.length +
          (f.2.foldl mergeArticleStep (alls, seen, 0, dc)).2.2.1 := by
      omega
    have eIH := ih (f.2.foldl mergeArticleStep (alls, seen, 0, dc)).1
      (f.2.foldl mergeArticleStep (alls, seen, 0, dc)).2.1
      (counts ++ [(f.1, f.2.length,
        (f.2.foldl mergeArticleStep (alls, seen, 0, dc)).2.2.1)])
      (f.2.foldl mergeArticleStep (alls, seen, 0, dc)).2.2.2
    rw [List.map_append, List.sum_append] at eIH
    simp only [List.map_cons, List.map_nil, List.sum_cons,
      List.sum_nil] at eIH
    omega

/-- C4: for every list of input category collections, the merger's
output size equals the number of distinct (present, non-empty) urls
across all inputs, each output article is the first article carrying its
url when the inputs are iterated in the merger's sorted category order,
and the per-source unique counts sum to the output size. -/
theorem claim_C4 (inputs : List (String × List Article)) :
    (load_all_categories inputs).1.length = distinctUrlCount inputs ∧
    (∀ a ∈ (load_all_categories inputs).1,
      ∃ u, a.url = some u ∧ u ≠ "" ∧
        (flatSorted inputs).find? (fun b => b.url == some u) = some a) ∧
    (((load_all_categories inputs).2.1).map (fun c => c.2.2)).sum =
      (load_all_categories inputs).1.length := by
  obtain ⟨hf1, _, _⟩ := files_flatten (sortedInputs inputs) [] [] [] 0
  have hL : (load_all_categories inputs).1 =
      ((flatSorted inputs).foldl mergeArticleStep ([], [], 0, 0)).1 := hf1
  refine ⟨?_, ?_, ?_⟩
  · rw [hL]
    obtain ⟨hlen, _⟩ := mf_len_nc (flatSorted inputs) [] [] 0 0
    rw [hlen]
    simp only [List.length_nil, Nat.zero_add, List.toFinset_nil,
      Finset.sdiff_empty]
    rw [List.card_toFinset]
    rfl
  · intro a ha
    rw [hL] at ha
    rcases mf_first_seen (flatSorted inputs) [] [] 0 0 a ha with
      h | ⟨u, hu, hne, _, hfind⟩
    · simp at h
    · exact ⟨u, hu, hne, hfind⟩
  · have hs := files_counts_sum (sortedInputs inputs) [] [] [] 0
    simpa using hs

/-- Witness for C4 at two overlapping inputs: categories `"a"` and
`"b"` share the url `"u"`; the merged size is 2, matching the distinct
urls and the sum of unique counts. -/
theorem claim_C4_witness :
    (load_all_categories
        [("b", [⟨some "u", "tb", "xb", ["b"], none, "s"⟩]),
         ("a", [⟨some "u", "ta", "xa", ["a"], none, "s"⟩,
                ⟨some "v", "tv", "xv", ["a"], none, "s"⟩])]).1.length =
      distinctUrlCount
        [("b", [⟨some "u", "tb", "xb", ["b"], none, "s"⟩]),
         ("a", [⟨some "u", "ta", "xa", ["a"], none, "s"⟩,
                ⟨some "v", "tv", "xv", ["a"], none, "s"⟩])] ∧
    (∀ a ∈ (load_all_categories
        [("b", [⟨some "u", "tb", "xb", ["b"], none, "s"⟩]),
         ("a", [⟨some "u", "ta", "xa", ["a"], none, "s"⟩,
                ⟨some "v", "tv", "xv", ["a"], none, "s"⟩])]).1,
      ∃ u, a.url = some u ∧ u ≠ "" ∧
        (flatSorted
          [("b", [⟨some "u", "tb", "xb", ["b"], none, "s"⟩]),
           ("a", [⟨some "u", "ta", "xa", ["a"], none, "s"⟩,
                  ⟨some "v", "tv", "xv", ["a"], none, "s"⟩])]).find?
          (fun b => b.url == some u) = some a) ∧
    (((load_all_categories
        [("b", [⟨some "u", "tb", "xb", ["b"], none, "s"⟩]),
         ("a", [⟨some "u", "ta", "xa", ["a"], none, "s"⟩,
                ⟨some "v", "tv", "xv", ["a"], none, "s"⟩])]).2.1).map
        (fun c => c.2.2)).sum =
      (load_all_categories
        [("b", [⟨some "u", "tb", "xb", ["b"], none, "s"⟩]),
         ("a", [⟨some "u", "ta", "xa", ["a"], none, "s"⟩,
                ⟨some "v", "tv", "xv", ["a"], none, "s"⟩])]).1.length :=
  claim_C4 _

/-- C10: the merger excludes every article whose `url` field is missing,
null or empty from the merged output; such an article is counted neither
in its source's unique count nor in the duplicate count, so a source's
reported original count can exceed unique plus duplicates — shown by a
concrete source with two falsy-url articles reporting 2 originals,
0 unique, and 0 duplicates. -/
theorem claim_C10 :
    (∀ inputs, ∀ a ∈ (load_all_categories inputs).1,
      ∃ u, a.url = some u ∧ u ≠ "") ∧
    (∀ (name : String) (arts : List Article),
      ∃ nc, (load_all_categories [(name, arts)]).2.1 =
          [(name, arts.length, nc)] ∧
        nc + (load_all_categories [(name, arts)]).2.2 +
          arts.countP (fun a => truthyUrl a.url == none) = arts.length) ∧
    ((load_all_categories [("c",
        [⟨none, "t1", "x1", ["c"], none, "s"⟩,
         ⟨some "", "t2", "x2", ["c"], none, "s"⟩])]).2.1 =
      [("c", 2, 0)] ∧
     (load_all_categories [("c",
        [⟨none, "t1", "x1", ["c"], none, "s"⟩,
         ⟨some "", "t2", "x2", ["c"], none, "s"⟩])]).2.2 = 0 ∧
     (2 : Nat) > 0 + 0) := by
  refine ⟨?_, ?_, by decide⟩
  · intro inputs a ha
    obtain ⟨hf1, _, _⟩ := files_flatten (sortedInputs inputs) [] [] [] 0
    have hL : (load_all_categories inputs).1 =
        ((flatSorted inputs).foldl mergeArticleStep ([], [], 0, 0)).1 := hf1
    rw [hL] at ha
    rcases mf_first_seen (flatSorted inputs) [] [] 0 0 a ha with
      h | ⟨u, hu, hne, _, _⟩
    · simp at h
    · exact ⟨u, hu, hne⟩
  · intro name arts
    have hsort : sortedInputs [(name, arts)] = [(name, arts)] := by
      simp [sortedInputs, insertByName]
    refine ⟨(arts.foldl mergeArticleStep ([], [], 0, 0)).2.2.1, ?_, ?_⟩
    · show (load_all_categories [(name, arts)]).2.1 = _
      unfold load_all_categories
      rw [hsort]
      rfl
    · have hacc := mf_account arts [] [] 0 0
      have hdc : (load_all_categories [(name, arts)]).2.2 =
          (arts.foldl mergeArticleStep ([], [], 0, 0)).2.2.2 := by
        unfold load_all_categories
        rw [hsort]
        rfl
      simp only [hdc]
      simpa using hacc

/-- Witness for C10 at a concrete merged corpus containing one truthy
and two falsy urls: every output article carries a present non-empty
url. -/
theorem claim_C10_witness :
    ∀ a ∈ (load_all_categories [("c",
        [⟨none, "t1", "x1", ["c"], none, "s"⟩,
         ⟨some "", "t2", "x2", ["c"], none, "s"⟩,
         ⟨some "u", "t3", "x3", ["c"], none, "s"⟩])]).1,
      ∃ u, a.url = some u ∧ u ≠ "" :=
  claim_C10.1 _

end SlobodenPecat
